import Mathlib

/-!
# Verification of the DeepScores annotation-conversion pipeline

Shallow embedding of `src/conversion/annotations.py`: the column-major
run-length encoder `binary_mask_to_rle`, the bounding-box crop
`extract_area_inside_bbox` (with Python/numpy slice semantics), the
binary-mask generator `generate_binary_mask`, and the record generator
`generate_annotations`.

Modelling conventions:
* a numpy 2D array of shape (h, w) is a `List (List α)` of `h` rows of
  length `w` (rectangularity is carried as a hypothesis where it matters);
* uint8 pixel values are `Nat`; the 0/1 binary mask produced by
  `astype('uint8')` is `Bool` (`true` ↔ 1, `false` ↔ 0);
* Python floats are `ℚ` (exact arithmetic; `math.floor`/`math.ceil` are
  `Int.floor`/`Int.ceil`, `round(x, 8)` is decimal round-half-to-even);
* Python sets and dicts supplied as lookups are membership functions.
-/

namespace Watershed

/-! ## Column-major flattening: `binary_mask.ravel(order='F')` -/

/-- Shape component 1 of a list-of-rows array (length of the first row). -/
def widthOf (m : List (List α)) : Nat := (m.headD []).length

/-- Column `j` of a boolean mask (entry `i` is row `i`'s `j`-th pixel). -/
def colF (m : List (List Bool)) (j : Nat) : List Bool :=
  m.map (fun r => r.getD j false)

/-- `binary_mask.ravel(order='F')`: column-major flattening — down each
column, left to right across columns. -/
def ravelF (m : List (List Bool)) : List Bool :=
  (List.range (widthOf m)).flatMap (colF m)

/-! ## `itertools.groupby`: maximal runs of equal value -/

/-- State-carrying groupby: current value `v` seen `n` times, rest of input. -/
def runsAux (v : Bool) (n : Nat) : List Bool → List (Bool × Nat)
  | [] => [(v, n)]
  | b :: bs => if b = v then runsAux v (n + 1) bs else (v, n) :: runsAux b 1 bs

/-- `itertools.groupby` on a boolean sequence, as (value, run length) pairs. -/
def runs : List Bool → List (Bool × Nat)
  | [] => []
  | b :: bs => runsAux b 1 bs

/-! ## The RLE encoder `binary_mask_to_rle` -/

/-- `{counts: [...], size: [h, w]}` — the uncompressed COCO RLE object. -/
structure RLEEncoding where
  counts : List Nat
  size : List Nat
deriving DecidableEq, Repr

/-- The `counts` list built by the loop in `binary_mask_to_rle`: for the
first group, if its value is 1 a leading 0 is appended; then every group
contributes its length. -/
def rleCounts (l : List Bool) : List Nat :=
  (match l.head? with
   | some true => [0]
   | _ => []) ++ (runs l).map Prod.snd

/-- `binary_mask_to_rle(binary_mask)` from `annotations.py`:
column-major groupby runs, leading zero when the first pixel is
foreground, `size = list(binary_mask.shape)`. -/
def binary_mask_to_rle (m : List (List Bool)) : RLEEncoding :=
  { counts := rleCounts (ravelF m), size := [m.length, widthOf m] }

/-! ## Decoder (from the spec's reading convention, for the round-trip) -/

/-- Replay counts as alternating runs starting with value `v`. -/
def decodeAux : Bool → List Nat → List Bool
  | _, [] => []
  | v, n :: ns => List.replicate n v ++ decodeAux (!v) ns

/-- Decode a counts list as alternating background/foreground runs,
starting with background. -/
def decodeFlat (counts : List Nat) : List Bool := decodeAux false counts

/-- Rebuild an `h × w` mask from a column-major flat sequence: pixel
`(i, j)` sits at flat position `j*h + i`. -/
def unravelF (l : List Bool) (h w : Nat) : List (List Bool) :=
  (List.range h).map (fun i => (List.range w).map (fun j => l.getD (j * h + i) false))

/-- Rectangular list-of-rows array: every row has the leading row's length. -/
def IsRect (m : List (List α)) : Prop := ∀ r ∈ m, r.length = widthOf m

instance (m : List (List α)) : Decidable (IsRect m) :=
  List.decidableBAll _ m

/-! ### Core run lemmas -/

/-- Runs flatten back to the grouped sequence. -/
def runsFlatten (rs : List (Bool × Nat)) : List Bool :=
  rs.flatMap (fun p => List.replicate p.2 p.1)

/-- Runs alternate values starting from the given one. -/
def AlternatingFrom : Bool → List (Bool × Nat) → Prop
  | _, [] => True
  | v, p :: ps => p.1 = v ∧ AlternatingFrom (!v) ps

/-- A 4×3 checkerboard mask used as a concrete instance. -/
def checkerboard : List (List Bool) :=
  (List.range 4).map (fun i => (List.range 3).map (fun j => (i + j) % 2 = 0))

/-- The spec's characterization of a maximal-run decomposition: the runs
flatten back to the sequence, every run is non-empty, and adjacent runs
carry different values. -/
def MaximalRuns (rs : List (Bool × Nat)) (l : List Bool) : Prop :=
  l = runsFlatten rs ∧ (∀ p ∈ rs, 0 < p.2) ∧
    List.Chain' (fun p q : Bool × Nat => p.1 ≠ q.1) rs

/-! ## Python slicing and `extract_area_inside_bbox` -/

/-- Python slice index normalization: a negative index counts from
the back (then is cut off at 0); a non-negative index is cut off at
the length. -/
def sliceIdx (n : Nat) (i : ℤ) : Nat :=
  if i < 0 then (max ((n : ℤ) + i) 0).toNat else min i.toNat n

/-- Python sequence slice `l[lo:hi]`. -/
def pySlice (l : List α) (lo hi : ℤ) : List α :=
  (l.take (sliceIdx l.length hi)).drop (sliceIdx l.length lo)

/-- `extract_area_inside_bbox(bbox, segmentation_mask)` from
`annotations.py`: `xmin = floor(bbox[0])`, `ymin = floor(bbox[1])`,
`xmax = ceil(bbox[0] + bbox[2])`, `ymax = ceil(bbox[1] + bbox[3])`, then
`segmentation_mask[ymin:ymax, xmin:xmax]` with numpy/Python slice
semantics. `np.asfortranarray` only changes memory layout, not content,
so it is the identity here. -/
def extract_area_inside_bbox (bbox : List ℚ) (seg : List (List Nat)) :
    List (List Nat) :=
  let xmin : ℤ := ⌊bbox.getD 0 0⌋
  let ymin : ℤ := ⌊bbox.getD 1 0⌋
  let xmax : ℤ := ⌈bbox.getD 0 0 + bbox.getD 2 0⌉
  let ymax : ℤ := ⌈bbox.getD 1 0 + bbox.getD 3 0⌉
  (pySlice seg ymin ymax).map (fun row => pySlice row xmin xmax)

/-- An index clamped to `[0, n]`, as claim C5 words it. -/
def clampIdx (n : Nat) (i : ℤ) : Nat := min (max i 0).toNat n

/-- The crop exactly as claim C5 describes it: integer bounds
`x0 = floor x`, `y0 = floor y`, `x1 = ceil (x+w)`, `y1 = ceil (y+h)`
clamped to `[0, width] × [0, height]`, then the window `[y0:y1, x0:x1]`. -/
def claimClampedCrop (bbox : List ℚ) (seg : List (List Nat)) :
    List (List Nat) :=
  let x0 : ℤ := ⌊bbox.getD 0 0⌋
  let y0 : ℤ := ⌊bbox.getD 1 0⌋
  let x1 : ℤ := ⌈bbox.getD 0 0 + bbox.getD 2 0⌉
  let y1 : ℤ := ⌈bbox.getD 1 0 + bbox.getD 3 0⌉
  let W := widthOf seg
  let H := seg.length
  ((seg.take (clampIdx H y1)).drop (clampIdx H y0)).map
    (fun row => (row.take (clampIdx W x1)).drop (clampIdx W x0))

/-- A concrete `h × w` test raster with pixel `(i, j)` holding `g i j`. -/
def mkSeg (h w : Nat) (g : Nat → Nat → Nat) : List (List Nat) :=
  (List.range h).map (fun i => (List.range w).map (g i))

/-! ## `generate_binary_mask` -/

/-- `generate_binary_mask(seg_mask, category_code)`: `bin_mask =
seg_mask == category_code` (element-wise; the `astype('uint8')` 0/1
array is modelled as `Bool`), paired with `np.count_nonzero(bin_mask)`. -/
def generate_binary_mask (seg_mask : List (List Nat)) (category_code : Nat) :
    List (List Bool) × Nat :=
  let bin_mask := seg_mask.map (fun row => row.map (fun p => p == category_code))
  (bin_mask, (bin_mask.map (fun row => row.count true)).sum)

/-! ## `generate_annotations` -/

/-- `round(q, 8)` in Python: round to 8 decimal digits, ties to even
(modelled exactly on ℚ). -/
def roundHalfEven (q : ℚ) : ℤ :=
  if Int.fract q < 1 / 2 then ⌊q⌋
  else if 1 / 2 < Int.fract q then ⌊q⌋ + 1
  else if 2 ∣ ⌊q⌋ then ⌊q⌋ else ⌊q⌋ + 1

/-- Round a rational to 8 decimal digits: `round(q, 8)`. -/
def pyRound8 (q : ℚ) : ℚ := (roundHalfEven (q * 100000000) : ℚ) / 100000000

/-- One `<object>` element of an image's XML annotation: its category
name and the normalized `bndbox` fractions. -/
structure ObjectXML where
  name : String
  xmin : ℚ
  ymin : ℚ
  xmax : ℚ
  ymax : ℚ
deriving DecidableEq, Repr, Inhabited

/-- One input image as the loop in `generate_annotations` sees it after
the I/O glue: the image name (`file_name.split('.')[0]`), the loaded
segmentation raster, the `size` width/height from the XML, and the
ordered object list. -/
structure ImageFile where
  img_name : String
  seg_array : List (List Nat)
  width : ℚ
  height : ℚ
  objects : List ObjectXML
deriving DecidableEq, Repr, Inhabited

/-- A COCO-style annotation record as assembled by the loop body. -/
structure AnnotationRecord where
  segmentation : RLEEncoding
  area : Nat
  iscrowd : Nat
  image_id : Int
  bbox : List ℚ
  category_id : Int
  id : Nat
deriving DecidableEq, Repr

section Generator

variable (category_lookup : String → Int) (img_lookup : String → Int)
  (class_colors : String → Nat) (train_set : String → Bool)

/-- The body of the per-object loop in `generate_annotations`: bbox
denormalization (with `round(·, 8)` on width/height), crop, binary mask,
RLE, record assembly. -/
def buildRecord (f : ImageFile) (o : ObjectXML) (counter : Nat) :
    AnnotationRecord :=
  let xmin := o.xmin * f.width
  let ymin := o.ymin * f.height
  let width := o.xmax * f.width - xmin
  let height := o.ymax * f.height - ymin
  let bbox := [xmin, ymin, pyRound8 width, pyRound8 height]
  let extracted_seg := extract_area_inside_bbox bbox f.seg_array
  let class_color := class_colors o.name
  let bm := generate_binary_mask extracted_seg class_color
  { segmentation := binary_mask_to_rle bm.1
    area := bm.2
    iscrowd := 0
    image_id := img_lookup f.img_name
    bbox := bbox
    category_id := category_lookup o.name
    id := counter }

/-- One step of the object loop: skip `"brace"`, otherwise build the
record, append it to the train or test list according to
`img_name in train_set`, and increment the counter. -/
def objStep (f : ImageFile)
    (st : List AnnotationRecord × List AnnotationRecord × Nat)
    (o : ObjectXML) : List AnnotationRecord × List AnnotationRecord × Nat :=
  if o.name ≠ "brace" then
    let record := buildRecord category_lookup img_lookup class_colors f o st.2.2
    if train_set f.img_name then (st.1 ++ [record], st.2.1, st.2.2 + 1)
    else (st.1, st.2.1 ++ [record], st.2.2 + 1)
  else st

/-- `generate_annotations` from `annotations.py` (the I/O — directory
listing, PNG loading, XML parsing, progress printing — is replaced by
the already-parsed `files` list): returns the pair (train annotation
list, test annotation list), the id counter starting at 1. -/
def generate_annotations (files : List ImageFile) :
    List AnnotationRecord × List AnnotationRecord :=
  let st := files.foldl
    (fun st f => f.objects.foldl
      (objStep category_lookup img_lookup class_colors train_set f) st)
    ([], [], 1)
  (st.1, st.2.1)

/-- The same loop, recording every created record in creation order in a
single list (the generation-order trace of `generate_annotations`). -/
def generate_all (files : List ImageFile) : List AnnotationRecord :=
  (files.foldl
    (fun st f => f.objects.foldl
      (fun (st : List AnnotationRecord × Nat) o =>
        if o.name ≠ "brace"
        then (st.1 ++ [buildRecord category_lookup img_lookup class_colors f o st.2],
              st.2 + 1)
        else st) st)
    ([], 1)).1

/-- The records one file's object list produces, ids counted from `c`
("brace" objects are skipped and consume no id). -/
def recsFrom (f : ImageFile) : List ObjectXML → Nat → List AnnotationRecord
  | [], _ => []
  | o :: os, c =>
    if o.name ≠ "brace"
    then buildRecord category_lookup img_lookup class_colors f o c ::
      recsFrom f os (c + 1)
    else recsFrom f os c

/-- Number of non-"brace" objects in a list. -/
def countNB (os : List ObjectXML) : Nat :=
  (os.filter (fun o => o.name ≠ "brace")).length

/-- Number of non-"brace" objects across all files. -/
def totalNB (fs : List ImageFile) : Nat :=
  (fs.map (fun f => countNB f.objects)).sum

/-- All records across files in creation order, ids from `c`. -/
def allRecs : List ImageFile → Nat → List AnnotationRecord
  | [], _ => []
  | f :: fs, c =>
    recsFrom category_lookup img_lookup class_colors f f.objects c ++
      allRecs fs (c + countNB f.objects)

/-- The records routed to the train list, ids from `c`. -/
def trainRecs : List ImageFile → Nat → List AnnotationRecord
  | [], _ => []
  | f :: fs, c =>
    (if train_set f.img_name
     then recsFrom category_lookup img_lookup class_colors f f.objects c
     else []) ++ trainRecs fs (c + countNB f.objects)

/-- The records routed to the test (validation) list, ids from `c`. -/
def testRecs : List ImageFile → Nat → List AnnotationRecord
  | [], _ => []
  | f :: fs, c =>
    (if train_set f.img_name
     then []
     else recsFrom category_lookup img_lookup class_colors f f.objects c) ++
      testRecs fs (c + countNB f.objects)

end Generator

/-- Column-major flattening with an explicit width. -/
def ravelW (w : Nat) (m : List (List Bool)) : List Bool :=
  (List.range w).flatMap (colF m)

/-! ### Concrete inputs for counterexamples and witnesses -/

/-- A "notehead" object whose normalized box is inverted (`xmax < xmin`),
so the denormalized width is negative. -/
def invertedBoxObject : ObjectXML :=
  { name := "notehead", xmin := 1/2, ymin := 0, xmax := 1/4, ymax := 1/2 }

/-- A minimal input image carrying `invertedBoxObject`. -/
def invertedBoxFile : ImageFile :=
  { img_name := "page1", seg_array := [[0]], width := 4, height := 4,
    objects := [invertedBoxObject] }

/-- A well-formed non-"brace" object. -/
def sampleObject : ObjectXML :=
  { name := "notehead", xmin := 0, ymin := 0, xmax := 1/2, ymax := 1/2 }

/-- A "brace" object (excluded by the generator). -/
def braceObject : ObjectXML :=
  { name := "brace", xmin := 0, ymin := 0, xmax := 1, ymax := 1 }

/-- A small input image holding one non-"brace" and one "brace" object. -/
def sampleFile : ImageFile :=
  { img_name := "page2", seg_array := [[7, 0], [0, 7]], width := 2, height := 2,
    objects := [sampleObject, braceObject] }

/-- A second image, not in the training set. -/
def sampleFileB : ImageFile :=
  { img_name := "page3", seg_array := [[7]], width := 1, height := 1,
    objects := [sampleObject] }

/-- Concrete category lookup: "brace" ↦ 0, everything else ↦ 1. -/
def clu0 : String → Int := fun s => if s = "brace" then 0 else 1

/-- Concrete image lookup. -/
def ilu0 : String → Int := fun _ => 5

/-- Concrete class-color lookup. -/
def col0 : String → Nat := fun _ => 7

/-- Concrete training-set membership: only "page2". -/
def tset0 : String → Bool := fun s => s == "page2"

/-- A throwaway record used as `getD` default. -/
def defaultRecord : AnnotationRecord :=
  { segmentation := { counts := [], size := [] }, area := 0, iscrowd := 0,
    image_id := 0, bbox := [], category_id := 0, id := 0 }

/-- The concatenated output lists of the sample run. -/
def sampleOutputs : List AnnotationRecord :=
  (generate_annotations clu0 ilu0 col0 tset0 [sampleFile, sampleFileB]).1
    ++ (generate_annotations clu0 ilu0 col0 tset0 [sampleFile, sampleFileB]).2

/-- The first record of the sample run. -/
def sampleRecord : AnnotationRecord := sampleOutputs.getD 0 defaultRecord

/-! ## Lemmas and claim theorems -/

theorem runsFlatten_runsAux (l : List Bool) :
    ∀ v n, runsFlatten (runsAux v n l) = List.replicate n v ++ l := by
  induction l with
  | nil => intro v n; simp [runsAux, runsFlatten]
  | cons b bs ih =>
    intro v n
    by_cases hb : b = v
    · subst hb
      simp [runsAux, ih, List.replicate_succ' n b]
    · simp only [runsAux, if_neg hb, runsFlatten, List.flatMap_cons]
      have := ih b 1
      simp only [runsFlatten] at this
      simp [this]

theorem runsFlatten_runs (l : List Bool) : runsFlatten (runs l) = l := by
  cases l with
  | nil => rfl
  | cons b bs => simp [runs, runsFlatten_runsAux]

@[simp] theorem alternatingFrom_nil (v : Bool) :
    AlternatingFrom v [] ↔ True := Iff.rfl

@[simp] theorem alternatingFrom_cons (v : Bool) (p : Bool × Nat)
    (ps : List (Bool × Nat)) :
    AlternatingFrom v (p :: ps) ↔ p.1 = v ∧ AlternatingFrom (!v) ps := Iff.rfl

theorem alternatingFrom_runsAux (l : List Bool) :
    ∀ v n, AlternatingFrom v (runsAux v n l) := by
  induction l with
  | nil => intro v n; simp [runsAux]
  | cons b bs ih =>
    intro v n
    by_cases hb : b = v
    · subst hb; simpa [runsAux] using ih b (n + 1)
    · have hbv : b = !v := by cases b <;> cases v <;> simp_all
      simp only [runsAux, if_neg hb, alternatingFrom_cons]
      exact ⟨trivial, hbv ▸ ih b 1⟩

theorem decodeAux_runsFlatten (rs : List (Bool × Nat)) :
    ∀ v, AlternatingFrom v rs → decodeAux v (rs.map Prod.snd) = runsFlatten rs := by
  induction rs with
  | nil => intro v _; rfl
  | cons p ps ih =>
    intro v hv
    rw [alternatingFrom_cons] at hv
    obtain ⟨h1, h2⟩ := hv
    simp only [List.map_cons, decodeAux, runsFlatten, List.flatMap_cons]
    rw [ih (!v) h2, h1]
    rfl

/-- Decoding the produced counts recovers the flat sequence. -/
theorem decodeFlat_rleCounts (l : List Bool) : decodeFlat (rleCounts l) = l := by
  cases l with
  | nil => rfl
  | cons b bs =>
    cases b with
    | false =>
      have halt := alternatingFrom_runsAux bs false 1
      simp only [rleCounts, List.head?_cons, runs, decodeFlat]
      rw [List.nil_append, decodeAux_runsFlatten _ _ halt]
      exact runsFlatten_runs (false :: bs)
    | true =>
      have halt := alternatingFrom_runsAux bs true 1
      simp only [rleCounts, List.head?_cons, runs, decodeFlat]
      have : decodeAux false (0 :: (runsAux true 1 bs).map Prod.snd)
          = decodeAux true ((runsAux true 1 bs).map Prod.snd) := by
        simp [decodeAux]
      rw [List.singleton_append, this, decodeAux_runsFlatten _ _ halt]
      exact runsFlatten_runs (true :: bs)

/-! ### Position bookkeeping for column-major flattening -/

theorem map_range_getD (r : List α) (d : α) :
    (List.range r.length).map (fun j => r.getD j d) = r := by
  induction r with
  | nil => rfl
  | cons a t ih =>
    rw [List.length_cons, List.range_succ_eq_map, List.map_cons, List.map_map]
    have hcomp : ((fun j => (a :: t).getD j d) ∘ Nat.succ) = fun j => t.getD j d := by
      funext j
      simp [Function.comp]
    simp only [List.getD_cons_zero, hcomp, ih]

theorem flatten_getD_uniform (h : Nat) :
    ∀ (L : List (List Bool)), (∀ c ∈ L, c.length = h) →
      ∀ j i, j < L.length → i < h →
        L.flatten.getD (j * h + i) false = (L.getD j []).getD i false := by
  intro L
  induction L with
  | nil => intro _ j i hj _; simp at hj
  | cons c cs ih =>
    intro hL j i hj hi
    have hc : c.length = h := hL c (by simp)
    cases j with
    | zero =>
      simp only [List.flatten_cons, Nat.zero_mul, Nat.zero_add, List.getD_cons_zero]
      exact List.getD_append c cs.flatten false i (by omega)
    | succ j =>
      have hidx : (j + 1) * h + i = c.length + (j * h + i) := by
        rw [hc]; ring
      rw [List.flatten_cons, hidx, List.getD_append_right c cs.flatten false _ (by omega),
        Nat.add_sub_cancel_left, List.getD_cons_succ]
      exact ih (fun x hx => hL x (by simp [hx])) j i (by simpa using hj) hi

theorem ravelF_getD (m : List (List Bool)) (i j : Nat)
    (hi : i < m.length) (hj : j < widthOf m) :
    (ravelF m).getD (j * m.length + i) false = (m.getD i []).getD j false := by
  have hflat : ravelF m = ((List.range (widthOf m)).map (colF m)).flatten := rfl
  have hcols : ∀ c ∈ (List.range (widthOf m)).map (colF m), c.length = m.length := by
    intro c hc
    obtain ⟨j', _, rfl⟩ := List.mem_map.1 hc
    simp [colF]
  rw [hflat, flatten_getD_uniform m.length _ hcols j i (by simpa using hj) hi]
  have hjlen : j < ((List.range (widthOf m)).map (colF m)).length := by simpa using hj
  rw [List.getD_eq_getElem _ _ hjlen]
  simp only [List.getElem_map, List.getElem_range]
  have hilen : i < (colF m j).length := by simpa [colF] using hi
  rw [List.getD_eq_getElem _ _ hilen]
  simp only [colF, List.getElem_map]
  rw [List.getD_eq_getElem _ _ hi]

theorem unravelF_ravelF (m : List (List Bool)) (hm : IsRect m) :
    unravelF (ravelF m) m.length (widthOf m) = m := by
  unfold unravelF
  conv_rhs => rw [← map_range_getD m []]
  apply List.map_congr_left
  intro i hi
  rw [List.mem_range] at hi
  have hmem : m.getD i [] ∈ m := by
    rw [List.getD_eq_getElem _ _ hi]; exact List.getElem_mem hi
  have hrow : (m.getD i []).length = widthOf m := hm _ hmem
  conv_rhs => rw [← map_range_getD (m.getD i []) false, hrow]
  apply List.map_congr_left
  intro j hj
  rw [List.mem_range] at hj
  exact ravelF_getD m i j hi hj

/-- C1. For every binary mask, decoding the RLEEncoding produced by
`binary_mask_to_rle` — replaying counts as alternating
background/foreground runs in column-major order over a grid of the
recorded size — reproduces the original mask exactly (hence in particular
for the all-zero, all-one, single-pixel, and checkerboard masks). -/
theorem c1_rle_decode_roundtrip (m : List (List Bool)) (hm : IsRect m) :
    unravelF (decodeFlat (binary_mask_to_rle m).counts)
        ((binary_mask_to_rle m).size.getD 0 0)
        ((binary_mask_to_rle m).size.getD 1 0) = m := by
  have hc : (binary_mask_to_rle m).counts = rleCounts (ravelF m) := rfl
  have h0 : (binary_mask_to_rle m).size.getD 0 0 = m.length := rfl
  have h1 : (binary_mask_to_rle m).size.getD 1 0 = widthOf m := rfl
  rw [hc, h0, h1, decodeFlat_rleCounts]
  exact unravelF_ravelF m hm

/-- Witness for C1 at the 4×3 checkerboard mask. -/
theorem c1_rle_decode_roundtrip_witness :
    unravelF (decodeFlat (binary_mask_to_rle checkerboard).counts)
        ((binary_mask_to_rle checkerboard).size.getD 0 0)
        ((binary_mask_to_rle checkerboard).size.getD 1 0) = checkerboard :=
  c1_rle_decode_roundtrip checkerboard (by decide)

/-! ### Run lengths: positivity, totals, alternation -/

theorem snd_pos_runsAux (l : List Bool) :
    ∀ v n, 0 < n → ∀ p ∈ runsAux v n l, 0 < p.2 := by
  induction l with
  | nil => intro v n hn p hp; simp only [runsAux, List.mem_singleton] at hp; simpa [hp]
  | cons b bs ih =>
    intro v n hn p hp
    by_cases hb : b = v
    · subst hb
      simp only [runsAux, if_pos rfl] at hp
      exact ih b (n + 1) (by omega) p hp
    · simp only [runsAux, if_neg hb, List.mem_cons] at hp
      rcases hp with hp | hp
      · simpa [hp]
      · exact ih b 1 (by omega) p hp

theorem snd_pos_runs (l : List Bool) : ∀ p ∈ runs l, 0 < p.2 := by
  cases l with
  | nil => intro p hp; simp [runs] at hp
  | cons b bs => exact snd_pos_runsAux bs b 1 (by omega)

theorem sum_runsAux (l : List Bool) :
    ∀ v n, ((runsAux v n l).map Prod.snd).sum = n + l.length := by
  induction l with
  | nil => intro v n; simp [runsAux]
  | cons b bs ih =>
    intro v n
    by_cases hb : b = v
    · subst hb
      have hstep : runsAux b n (b :: bs) = runsAux b (n + 1) bs := by
        simp [runsAux]
      rw [hstep, ih]
      simp only [List.length_cons]
      omega
    · simp only [runsAux, if_neg hb, List.map_cons, List.sum_cons, ih]
      simp only [List.length_cons]
      omega

theorem sum_runs (l : List Bool) : ((runs l).map Prod.snd).sum = l.length := by
  cases l with
  | nil => rfl
  | cons b bs =>
    have hstep : runs (b :: bs) = runsAux b 1 bs := rfl
    rw [hstep, sum_runsAux bs b 1, List.length_cons, Nat.add_comm]

theorem chain_ne_of_alternatingFrom (rs : List (Bool × Nat)) :
    ∀ v, AlternatingFrom v rs →
      List.Chain' (fun p q : Bool × Nat => p.1 ≠ q.1) rs := by
  induction rs with
  | nil => intro v _; simp
  | cons p ps ih =>
    intro v hv
    rw [alternatingFrom_cons] at hv
    obtain ⟨h1, h2⟩ := hv
    rw [List.chain'_cons']
    refine ⟨?_, ih (!v) h2⟩
    intro q hq
    cases ps with
    | nil => simp at hq
    | cons q' qs =>
      simp only [List.head?_cons, Option.mem_some_iff] at hq
      obtain ⟨hq1, _⟩ := h2
      rw [h1, ← hq, hq1]
      simp

theorem maximalRuns_runs (l : List Bool) : MaximalRuns (runs l) l := by
  refine ⟨(runsFlatten_runs l).symm, snd_pos_runs l, ?_⟩
  cases l with
  | nil => simp [runs]
  | cons b bs =>
    exact chain_ne_of_alternatingFrom _ b (alternatingFrom_runsAux bs b 1)

theorem rleCounts_eq_if (l : List Bool) :
    rleCounts l =
      (if l.head? = some true then [0] else []) ++ (runs l).map Prod.snd := by
  unfold rleCounts
  cases hh : l.head? with
  | none => simp [hh]
  | some b => cases b <;> simp [hh]

/-- C2. The RLE encoder emits the lengths of the maximal runs of equal
value in column-major traversal order, prepending a zero-length
background run exactly when the first column-major pixel is foreground;
the 2×2 mask whose only foreground pixel is the first column-major pixel
encodes to `counts=[0,1,3]`, `size=[2,2]`, and the 4×4 all-background
mask encodes to `counts=[16]`, `size=[4,4]`. -/
theorem c2_rle_counts_shape (m : List (List Bool)) :
    (∃ rs, MaximalRuns rs (ravelF m) ∧
        (binary_mask_to_rle m).counts =
          (if (ravelF m).head? = some true then [0] else []) ++ rs.map Prod.snd)
    ∧ binary_mask_to_rle [[true, false], [false, false]] =
        { counts := [0, 1, 3], size := [2, 2] }
    ∧ binary_mask_to_rle
        [[false, false, false, false], [false, false, false, false],
         [false, false, false, false], [false, false, false, false]] =
        { counts := [16], size := [4, 4] } :=
  ⟨⟨runs (ravelF m), maximalRuns_runs (ravelF m), rleCounts_eq_if (ravelF m)⟩,
    by decide, by decide⟩

/-- C3. For every binary mask of dimensions `h × w`, the produced
RLEEncoding satisfies `sum(counts) = h * w`. -/
theorem c3_rle_counts_sum (m : List (List Bool)) (h w : Nat)
    (hh : m.length = h) (hw : ∀ r ∈ m, r.length = w) :
    (binary_mask_to_rle m).counts.sum = h * w := by
  have hsum : (binary_mask_to_rle m).counts.sum = (ravelF m).length := by
    have : (binary_mask_to_rle m).counts = rleCounts (ravelF m) := rfl
    rw [this, rleCounts_eq_if, List.sum_append, sum_runs]
    split <;> simp
  rw [hsum]
  have hlen : (ravelF m).length = widthOf m * m.length := by
    unfold ravelF
    rw [List.length_flatMap]
    have : (List.range (widthOf m)).map (fun j => (colF m j).length) =
        List.replicate (widthOf m) m.length := by
      rw [List.eq_replicate_iff]
      constructor
      · simp
      · intro x hx
        obtain ⟨j, _, rfl⟩ := List.mem_map.1 hx
        simp [colF]
    have hcomp : List.length ∘ colF m = fun j => (colF m j).length := rfl
    rw [hcomp, this, List.sum_replicate, smul_eq_mul]
  rw [hlen, hh]
  cases m with
  | nil => simp at hh; subst hh; simp
  | cons r t =>
    have : widthOf (r :: t) = w := hw r (by simp)
    rw [this, Nat.mul_comm]

/-- Witness for C3 at a concrete 2×3 mask. -/
theorem c3_rle_counts_sum_witness :
    (binary_mask_to_rle [[true, false, true], [false, false, true]]).counts.sum
      = 2 * 3 :=
  c3_rle_counts_sum [[true, false, true], [false, false, true]] 2 3
    (by decide) (by decide)

/-- C9. In a produced counts list, a zero can occur only at index 0 (the
leading background run inserted when the first column-major pixel is
foreground): every count after the first position is strictly positive. -/
theorem c9_rle_zero_only_leading (m : List (List Bool)) :
    (∀ c ∈ (binary_mask_to_rle m).counts.drop 1, 0 < c)
    ∧ (0 ∈ (binary_mask_to_rle m).counts →
        (binary_mask_to_rle m).counts.head? = some 0 ∧
          (ravelF m).head? = some true) := by
  have hc : (binary_mask_to_rle m).counts = rleCounts (ravelF m) := rfl
  rw [hc, rleCounts_eq_if]
  have hpos : ∀ c ∈ (runs (ravelF m)).map Prod.snd, 0 < c := by
    intro c hcm
    obtain ⟨p, hp, rfl⟩ := List.mem_map.1 hcm
    exact snd_pos_runs (ravelF m) p hp
  by_cases hhd : (ravelF m).head? = some true
  · rw [if_pos hhd]
    refine ⟨?_, ?_⟩
    · intro c hcm
      simp only [List.singleton_append, List.drop_succ_cons, List.drop_zero] at hcm
      exact hpos c hcm
    · intro _
      exact ⟨by simp, hhd⟩
  · rw [if_neg hhd]
    refine ⟨?_, ?_⟩
    · intro c hcm
      exact hpos c (List.mem_of_mem_drop hcm)
    · intro h0
      simp only [List.nil_append] at h0
      exact absurd (hpos 0 h0) (by simp)

/-- Witness for C9 at the mask with counts `[0, 1, 3]`. -/
theorem c9_rle_zero_only_leading_witness :
    (0 : Nat) < 3
    ∧ ((binary_mask_to_rle [[true, false], [false, false]]).counts.head? = some 0
        ∧ (ravelF [[true, false], [false, false]]).head? = some true) :=
  ⟨(c9_rle_zero_only_leading [[true, false], [false, false]]).1 3 (by decide),
    (c9_rle_zero_only_leading [[true, false], [false, false]]).2 (by decide)⟩

theorem drop_range' : ∀ (n s m : Nat),
    (List.range' s n).drop m = List.range' (s + m) (n - m) := by
  intro n
  induction n with
  | zero => intro s m; simp
  | succ n ih =>
    intro s m
    cases m with
    | zero => simp
    | succ m =>
      rw [List.range'_succ, List.drop_succ_cons, ih (s + 1) m,
        Nat.succ_sub_succ]
      congr 1
      omega

theorem take_drop_range (n a b : Nat) (f : Nat → α)
    (han : a ≤ n) :
    (((List.range n).map f).take a).drop b = (List.range' b (a - b)).map f := by
  rw [← List.map_take, ← List.map_drop, List.take_range,
    Nat.min_eq_left han, List.range_eq_range', drop_range', Nat.zero_add]

theorem sliceIdx_eq_clampIdx (n : Nat) (i : ℤ) (hi : 0 ≤ i) :
    sliceIdx n i = clampIdx n i := by
  unfold sliceIdx clampIdx
  rw [if_neg (by omega), max_eq_left hi]

theorem mem_pySlice (l : List α) (lo hi : ℤ) :
    ∀ r ∈ pySlice l lo hi, r ∈ l := by
  intro r hr
  exact List.mem_of_mem_take (List.mem_of_mem_drop hr)

/-- C5 (amended). For every bounding box whose real crop bounds are
non-negative (`x ≥ 0`, `y ≥ 0`, `x+w ≥ 0`, `y+h ≥ 0`) and every
rectangular mask, the extracted window coincides with the
floor/ceil bounds clamped to `[0, width] × [0, height]`; in particular
bbox `[10, 5, 20, 15]` on any 100×100 mask crops rows `5..20` and
columns `10..30` exactly. (For negative bounds Python slicing wraps from
the end of the axis instead of clamping; see the counterexample.) -/
theorem c5_crop_clamped (bbox : List ℚ) (seg : List (List Nat))
    (hrect : IsRect seg)
    (hx : 0 ≤ bbox.getD 0 0) (hy : 0 ≤ bbox.getD 1 0)
    (hxw : 0 ≤ bbox.getD 0 0 + bbox.getD 2 0)
    (hyh : 0 ≤ bbox.getD 1 0 + bbox.getD 3 0) :
    extract_area_inside_bbox bbox seg = claimClampedCrop bbox seg
    ∧ ∀ g, extract_area_inside_bbox [10, 5, 20, 15]
        (mkSeg 100 100 g) =
        (List.range' 5 15).map (fun i => (List.range' 10 20).map (g i)) := by
  constructor
  · simp only [extract_area_inside_bbox, claimClampedCrop, pySlice]
    have h0 : sliceIdx seg.length ⌊bbox.getD 1 0⌋
        = clampIdx seg.length ⌊bbox.getD 1 0⌋ :=
      sliceIdx_eq_clampIdx _ _ (Int.le_floor.2 (by simpa using hy))
    have h1 : sliceIdx seg.length ⌈bbox.getD 1 0 + bbox.getD 3 0⌉
        = clampIdx seg.length ⌈bbox.getD 1 0 + bbox.getD 3 0⌉ :=
      sliceIdx_eq_clampIdx _ _
        (by exact_mod_cast hyh.trans (Int.le_ceil _))
    rw [h0, h1]
    apply List.map_congr_left
    intro row hrow
    have hlen : row.length = widthOf seg :=
      hrect row (List.mem_of_mem_take (List.mem_of_mem_drop hrow))
    have h2 : sliceIdx row.length ⌊bbox.getD 0 0⌋
        = clampIdx row.length ⌊bbox.getD 0 0⌋ :=
      sliceIdx_eq_clampIdx _ _ (Int.le_floor.2 (by simpa using hx))
    have h3 : sliceIdx row.length ⌈bbox.getD 0 0 + bbox.getD 2 0⌉
        = clampIdx row.length ⌈bbox.getD 0 0 + bbox.getD 2 0⌉ :=
      sliceIdx_eq_clampIdx _ _
        (by exact_mod_cast hxw.trans (Int.le_ceil _))
    rw [h2, h3, hlen]
  · intro g
    simp only [extract_area_inside_bbox, pySlice, mkSeg]
    have hy0 : (⌊([10, 5, 20, 15] : List ℚ).getD 1 0⌋ : ℤ) = 5 := by
      norm_num
    have hy1 : (⌈([10, 5, 20, 15] : List ℚ).getD 1 0
        + ([10, 5, 20, 15] : List ℚ).getD 3 0⌉ : ℤ) = 20 := by
      norm_num
    have hx0 : (⌊([10, 5, 20, 15] : List ℚ).getD 0 0⌋ : ℤ) = 10 := by
      norm_num
    have hx1 : (⌈([10, 5, 20, 15] : List ℚ).getD 0 0
        + ([10, 5, 20, 15] : List ℚ).getD 2 0⌉ : ℤ) = 30 := by
      norm_num
    rw [hy0, hy1, hx0, hx1]
    simp only [List.length_map, List.length_range]
    have hs20 : sliceIdx 100 20 = 20 := by decide
    have hs5 : sliceIdx 100 5 = 5 := by decide
    rw [hs20, hs5, take_drop_range 100 20 5 _ (by omega)]
    rw [List.map_map]
    apply List.map_congr_left
    intro i _
    simp only [Function.comp, List.length_map, List.length_range]
    have hs30 : sliceIdx 100 30 = 30 := by decide
    have hs10 : sliceIdx 100 10 = 10 := by decide
    rw [hs30, hs10, take_drop_range 100 30 10 _ (by omega)]

/-- Counterexample to C5 as stated: for bbox `[-2, 0, 1, 1]` on a 3×3
mask the negative column bounds wrap to the end of each row under
Python slicing (`row[-2:-1]` is the second-to-last pixel), whereas
clamping them to `[0, width]` as the claim says would give an empty
window. -/
theorem c5_counterexample_negative_bounds_wrap :
    extract_area_inside_bbox [-2, 0, 1, 1] [[1, 2, 3], [4, 5, 6], [7, 8, 9]]
      ≠ claimClampedCrop [-2, 0, 1, 1] [[1, 2, 3], [4, 5, 6], [7, 8, 9]] := by
  have hg0 : ([(-2 : ℚ), 0, 1, 1]).getD 0 0 = -2 := rfl
  have hg1 : ([(-2 : ℚ), 0, 1, 1]).getD 1 0 = 0 := rfl
  have hg2 : ([(-2 : ℚ), 0, 1, 1]).getD 2 0 = 1 := rfl
  have hg3 : ([(-2 : ℚ), 0, 1, 1]).getD 3 0 = 1 := rfl
  have hx0 : (⌊(-2 : ℚ)⌋ : ℤ) = -2 := by norm_num
  have hx1 : (⌈(-2 : ℚ) + 1⌉ : ℤ) = -1 := by
    rw [show ((-2 : ℚ) + 1) = ((-1 : ℤ) : ℚ) by norm_num, Int.ceil_intCast]
  have hy0 : (⌊(0 : ℚ)⌋ : ℤ) = 0 := by norm_num
  have hy1 : (⌈(0 : ℚ) + 1⌉ : ℤ) = 1 := by
    rw [show ((0 : ℚ) + 1) = ((1 : ℤ) : ℚ) by norm_num, Int.ceil_intCast]
  have hL : extract_area_inside_bbox [-2, 0, 1, 1]
      [[1, 2, 3], [4, 5, 6], [7, 8, 9]] = [[2]] := by
    simp only [extract_area_inside_bbox, hg0, hg1, hg2, hg3, hx0, hx1,
      hy0, hy1]
    decide
  have hR : claimClampedCrop [-2, 0, 1, 1]
      [[1, 2, 3], [4, 5, 6], [7, 8, 9]] = [[]] := by
    simp only [claimClampedCrop, hg0, hg1, hg2, hg3, hx0, hx1, hy0, hy1]
    decide
  rw [hL, hR]
  decide

/-- Witness for the amended C5 at a concrete in-bounds box and mask. -/
theorem c5_crop_clamped_witness :
    extract_area_inside_bbox [10, 5, 20, 15] (mkSeg 3 3 (fun i j => i * 3 + j))
      = claimClampedCrop [10, 5, 20, 15] (mkSeg 3 3 (fun i j => i * 3 + j)) :=
  (c5_crop_clamped [10, 5, 20, 15] (mkSeg 3 3 (fun i j => i * 3 + j))
    (by decide)
    (show (0 : ℚ) ≤ 10 by norm_num)
    (show (0 : ℚ) ≤ 5 by norm_num)
    (show (0 : ℚ) ≤ 10 + 20 by norm_num)
    (show (0 : ℚ) ≤ 5 + 15 by norm_num)).1

/-! ### Characterizing the generator folds -/

theorem countNB_cons_brace (o : ObjectXML) (os : List ObjectXML)
    (h : o.name = "brace") : countNB (o :: os) = countNB os := by
  simp [countNB, List.filter_cons, h]

theorem countNB_cons_keep (o : ObjectXML) (os : List ObjectXML)
    (h : ¬o.name = "brace") : countNB (o :: os) = countNB os + 1 := by
  simp [countNB, List.filter_cons, h]

section GeneratorLemmas

variable (clu : String → Int) (ilu : String → Int) (colors : String → Nat)
  (tset : String → Bool)

theorem foldl_objStep (f : ImageFile) :
    ∀ (os : List ObjectXML) (tr te : List AnnotationRecord) (c : Nat),
      os.foldl (objStep clu ilu colors tset f) (tr, te, c)
        = (tr ++ (if tset f.img_name then recsFrom clu ilu colors f os c else []),
           te ++ (if tset f.img_name then [] else recsFrom clu ilu colors f os c),
           c + countNB os) := by
  intro os
  induction os with
  | nil =>
    intro tr te c
    simp [recsFrom, countNB]
  | cons o os ih =>
    intro tr te c
    rw [List.foldl_cons]
    by_cases hb : o.name = "brace"
    · have hstep : objStep clu ilu colors tset f (tr, te, c) o = (tr, te, c) := by
        simp [objStep, hb]
      rw [hstep, ih, countNB_cons_brace o os hb]
      have hrec : recsFrom clu ilu colors f (o :: os) c
          = recsFrom clu ilu colors f os c := by
        simp [recsFrom, hb]
      rw [hrec]
    · have hrec : recsFrom clu ilu colors f (o :: os) c
          = buildRecord clu ilu colors f o c :: recsFrom clu ilu colors f os (c + 1) := by
        simp [recsFrom, hb]
      by_cases ht : tset f.img_name
      · have hstep : objStep clu ilu colors tset f (tr, te, c) o
            = (tr ++ [buildRecord clu ilu colors f o c], te, c + 1) := by
          simp [objStep, hb, ht]
        rw [hstep, ih, hrec, countNB_cons_keep o os hb, if_pos ht, if_pos ht,
          List.append_assoc]
        refine congrArg₂ _ (by simp [ht]) (congrArg₂ _ (by simp [ht]) (by omega))
      · have hstep : objStep clu ilu colors tset f (tr, te, c) o
            = (tr, te ++ [buildRecord clu ilu colors f o c], c + 1) := by
          simp [objStep, hb, ht]
        rw [hstep, ih, hrec, countNB_cons_keep o os hb, if_neg ht, if_neg ht,
          List.append_assoc]
        refine congrArg₂ _ (by simp [ht]) (congrArg₂ _ (by simp [ht]) (by omega))

theorem totalNB_cons (f : ImageFile) (fs : List ImageFile) :
    totalNB (f :: fs) = countNB f.objects + totalNB fs := by
  simp [totalNB]

theorem foldl_fileStep :
    ∀ (fs : List ImageFile) (tr te : List AnnotationRecord) (c : Nat),
      fs.foldl (fun st f => f.objects.foldl
          (objStep clu ilu colors tset f) st) (tr, te, c)
        = (tr ++ trainRecs clu ilu colors tset fs c,
           te ++ testRecs clu ilu colors tset fs c,
           c + totalNB fs) := by
  intro fs
  induction fs with
  | nil =>
    intro tr te c
    simp [trainRecs, testRecs, totalNB]
  | cons f fs ih =>
    intro tr te c
    rw [List.foldl_cons, foldl_objStep clu ilu colors tset f f.objects tr te c,
      ih, totalNB_cons]
    have htr : trainRecs clu ilu colors tset (f :: fs) c
        = (if tset f.img_name then recsFrom clu ilu colors f f.objects c else [])
          ++ trainRecs clu ilu colors tset fs (c + countNB f.objects) := rfl
    have hte : testRecs clu ilu colors tset (f :: fs) c
        = (if tset f.img_name then [] else recsFrom clu ilu colors f f.objects c)
          ++ testRecs clu ilu colors tset fs (c + countNB f.objects) := rfl
    rw [htr, hte, List.append_assoc, List.append_assoc]
    refine congrArg₂ _ rfl (congrArg₂ _ rfl (by omega))

theorem generate_annotations_eq (files : List ImageFile) :
    generate_annotations clu ilu colors tset files
      = (trainRecs clu ilu colors tset files 1,
         testRecs clu ilu colors tset files 1) := by
  unfold generate_annotations
  rw [show (([], [], 1) : List AnnotationRecord × List AnnotationRecord × Nat)
      = ([], [], 1) from rfl]
  rw [foldl_fileStep clu ilu colors tset files [] [] 1]
  simp

theorem foldl_allStep (f : ImageFile) :
    ∀ (os : List ObjectXML) (acc : List AnnotationRecord) (c : Nat),
      os.foldl (fun (st : List AnnotationRecord × Nat) o =>
          if o.name ≠ "brace"
          then (st.1 ++ [buildRecord clu ilu colors f o st.2], st.2 + 1)
          else st) (acc, c)
        = (acc ++ recsFrom clu ilu colors f os c, c + countNB os) := by
  intro os
  induction os with
  | nil => intro acc c; simp [recsFrom, countNB]
  | cons o os ih =>
    intro acc c
    rw [List.foldl_cons]
    by_cases hb : o.name = "brace"
    · rw [if_neg (by simpa using hb), ih, countNB_cons_brace o os hb]
      have hrec : recsFrom clu ilu colors f (o :: os) c
          = recsFrom clu ilu colors f os c := by
        simp [recsFrom, hb]
      rw [hrec]
    · rw [if_pos (by simpa using hb), ih, countNB_cons_keep o os hb]
      have hrec : recsFrom clu ilu colors f (o :: os) c
          = buildRecord clu ilu colors f o c :: recsFrom clu ilu colors f os (c + 1) := by
        simp [recsFrom, hb]
      rw [hrec, List.append_assoc]
      refine congrArg₂ _ (by simp) (by omega)

theorem generate_all_eq (files : List ImageFile) :
    generate_all clu ilu colors files = allRecs clu ilu colors files 1 := by
  unfold generate_all
  have hmain : ∀ (fs : List ImageFile) (acc : List AnnotationRecord) (c : Nat),
      fs.foldl (fun st f => f.objects.foldl
          (fun (st : List AnnotationRecord × Nat) o =>
            if o.name ≠ "brace"
            then (st.1 ++ [buildRecord clu ilu colors f o st.2], st.2 + 1)
            else st) st) (acc, c)
        = (acc ++ allRecs clu ilu colors fs c, c + totalNB fs) := by
    intro fs
    induction fs with
    | nil => intro acc c; simp [allRecs, totalNB]
    | cons f fs ih =>
      intro acc c
      rw [List.foldl_cons, foldl_allStep clu ilu colors f f.objects acc c, ih,
        totalNB_cons]
      have hall : allRecs clu ilu colors (f :: fs) c
          = recsFrom clu ilu colors f f.objects c
            ++ allRecs clu ilu colors fs (c + countNB f.objects) := rfl
      rw [hall, List.append_assoc]
      refine congrArg₂ _ rfl (by omega)
  rw [hmain files [] 1]
  simp

theorem map_id_recsFrom (f : ImageFile) :
    ∀ (os : List ObjectXML) (c : Nat),
      (recsFrom clu ilu colors f os c).map AnnotationRecord.id
        = List.range' c (countNB os) := by
  intro os
  induction os with
  | nil => intro c; simp [recsFrom, countNB]
  | cons o os ih =>
    intro c
    by_cases hb : o.name = "brace"
    · rw [show recsFrom clu ilu colors f (o :: os) c
          = recsFrom clu ilu colors f os c by simp [recsFrom, hb],
        countNB_cons_brace o os hb]
      exact ih c
    · rw [show recsFrom clu ilu colors f (o :: os) c
          = buildRecord clu ilu colors f o c ::
            recsFrom clu ilu colors f os (c + 1) by simp [recsFrom, hb],
        countNB_cons_keep o os hb, List.map_cons, ih (c + 1), List.range'_succ]
      rfl

theorem map_id_allRecs :
    ∀ (fs : List ImageFile) (c : Nat),
      (allRecs clu ilu colors fs c).map AnnotationRecord.id
        = List.range' c (totalNB fs) := by
  intro fs
  induction fs with
  | nil => intro c; simp [allRecs, totalNB]
  | cons f fs ih =>
    intro c
    rw [show allRecs clu ilu colors (f :: fs) c
        = recsFrom clu ilu colors f f.objects c
          ++ allRecs clu ilu colors fs (c + countNB f.objects) from rfl,
      List.map_append, map_id_recsFrom clu ilu colors f f.objects c, ih,
      totalNB_cons]
    have := List.range'_append c (countNB f.objects) (totalNB fs) 1
    simp only [Nat.one_mul] at this
    rw [this, Nat.add_comm (totalNB fs) (countNB f.objects)]

theorem length_allRecs (fs : List ImageFile) (c : Nat) :
    (allRecs clu ilu colors fs c).length = totalNB fs := by
  have h := congrArg List.length (map_id_allRecs clu ilu colors fs c)
  simpa using h

theorem train_test_perm :
    ∀ (fs : List ImageFile) (c : Nat),
      (trainRecs clu ilu colors tset fs c ++ testRecs clu ilu colors tset fs c).Perm
        (allRecs clu ilu colors fs c) := by
  intro fs
  induction fs with
  | nil => intro c; simp [trainRecs, testRecs, allRecs]
  | cons f fs ih =>
    intro c
    have htr : trainRecs clu ilu colors tset (f :: fs) c
        = (if tset f.img_name then recsFrom clu ilu colors f f.objects c else [])
          ++ trainRecs clu ilu colors tset fs (c + countNB f.objects) := rfl
    have hte : testRecs clu ilu colors tset (f :: fs) c
        = (if tset f.img_name then [] else recsFrom clu ilu colors f f.objects c)
          ++ testRecs clu ilu colors tset fs (c + countNB f.objects) := rfl
    have hall : allRecs clu ilu colors (f :: fs) c
        = recsFrom clu ilu colors f f.objects c
          ++ allRecs clu ilu colors fs (c + countNB f.objects) := rfl
    rw [htr, hte, hall]
    by_cases ht : tset f.img_name
    · rw [if_pos ht, if_pos ht, List.nil_append, List.append_assoc]
      exact (List.Perm.append_left _ (ih (c + countNB f.objects)))
    · rw [if_neg ht, if_neg ht, List.nil_append]
      refine List.Perm.trans ?_
        (List.Perm.append_left _ (ih (c + countNB f.objects)))
      rw [← List.append_assoc, ← List.append_assoc]
      exact List.Perm.append_right _ List.perm_append_comm

theorem mem_recsFrom (f : ImageFile) :
    ∀ (os : List ObjectXML) (c : Nat) (r : AnnotationRecord),
      r ∈ recsFrom clu ilu colors f os c →
        ∃ o ∈ os, o.name ≠ "brace" ∧
          ∃ k, r = buildRecord clu ilu colors f o k := by
  intro os
  induction os with
  | nil => intro c r hr; simp [recsFrom] at hr
  | cons o os ih =>
    intro c r hr
    by_cases hb : o.name = "brace"
    · rw [show recsFrom clu ilu colors f (o :: os) c
          = recsFrom clu ilu colors f os c by simp [recsFrom, hb]] at hr
      obtain ⟨o', ho', hname, k, hk⟩ := ih c r hr
      exact ⟨o', by simp [ho'], hname, k, hk⟩
    · rw [show recsFrom clu ilu colors f (o :: os) c
          = buildRecord clu ilu colors f o c ::
            recsFrom clu ilu colors f os (c + 1) by simp [recsFrom, hb]] at hr
      rcases List.mem_cons.1 hr with hr | hr
      · exact ⟨o, by simp, hb, c, hr⟩
      · obtain ⟨o', ho', hname, k, hk⟩ := ih (c + 1) r hr
        exact ⟨o', by simp [ho'], hname, k, hk⟩

theorem mem_allRecs :
    ∀ (fs : List ImageFile) (c : Nat) (r : AnnotationRecord),
      r ∈ allRecs clu ilu colors fs c →
        ∃ f ∈ fs, ∃ o ∈ f.objects, o.name ≠ "brace" ∧
          ∃ k, r = buildRecord clu ilu colors f o k := by
  intro fs
  induction fs with
  | nil => intro c r hr; simp [allRecs] at hr
  | cons f fs ih =>
    intro c r hr
    rw [show allRecs clu ilu colors (f :: fs) c
        = recsFrom clu ilu colors f f.objects c
          ++ allRecs clu ilu colors fs (c + countNB f.objects) from rfl] at hr
    rcases List.mem_append.1 hr with hr | hr
    · obtain ⟨o, ho, hname, k, hk⟩ := mem_recsFrom clu ilu colors f f.objects c r hr
      exact ⟨f, by simp, o, ho, hname, k, hk⟩
    · obtain ⟨f', hf', o, ho, hname, k, hk⟩ := ih (c + countNB f.objects) r hr
      exact ⟨f', by simp [hf'], o, ho, hname, k, hk⟩

end GeneratorLemmas

/-! ### Column-major and row-major traversals count the same pixels -/

theorem flatMap_const_nil (L : List β) :
    (L.flatMap fun _ => ([] : List α)) = [] := by
  induction L with
  | nil => rfl
  | cons a L ih =>
    simp only [List.flatMap_cons, List.nil_append]
    exact ih

theorem flatMap_cons_perm (L : List β) (g : β → α) (t : β → List α) :
    (L.flatMap (fun j => g j :: t j)).Perm (L.map g ++ L.flatMap t) := by
  induction L with
  | nil => simp
  | cons a L ih =>
    simp only [List.flatMap_cons, List.map_cons, List.cons_append]
    refine List.Perm.cons (g a) ?_
    refine List.Perm.trans (List.Perm.append_left (t a) ih) ?_
    rw [← List.append_assoc, ← List.append_assoc]
    exact List.Perm.append_right _ List.perm_append_comm

theorem ravelW_perm_flatten (w : Nat) :
    ∀ (m : List (List Bool)), (∀ r ∈ m, r.length = w) →
      (ravelW w m).Perm m.flatten := by
  intro m
  induction m with
  | nil =>
    intro _
    have hcol : colF ([] : List (List Bool)) = fun _ => [] := by
      funext j; rfl
    rw [show ravelW w [] = (List.range w).flatMap (colF []) from rfl, hcol,
      flatMap_const_nil]
    rfl
  | cons row rows ih =>
    intro hm
    have hrow : row.length = w := hm row (by simp)
    have hcol : colF (row :: rows) = fun j => row.getD j false :: colF rows j := by
      funext j; rfl
    rw [show ravelW w (row :: rows) = (List.range w).flatMap (colF (row :: rows))
        from rfl, hcol, List.flatten_cons]
    refine List.Perm.trans
      (flatMap_cons_perm (List.range w) (fun j => row.getD j false) (colF rows)) ?_
    have hmap : (List.range w).map (fun j => row.getD j false) = row := by
      conv_rhs => rw [← map_range_getD row false]
      rw [hrow]
    rw [hmap]
    exact List.Perm.append_left row (ih (fun r hr => hm r (by simp [hr])))

theorem ravelF_count_eq_flatten (m : List (List Bool)) (hm : IsRect m) :
    (ravelF m).count true = m.flatten.count true := by
  exact (ravelW_perm_flatten (widthOf m) m hm).count_eq true

/-! ### Rectangularity preservation -/

theorem isRect_of_const_length (m : List (List α)) (k : Nat)
    (h : ∀ r ∈ m, r.length = k) : IsRect m := by
  intro r hr
  rw [h r hr]
  cases m with
  | nil => simp at hr
  | cons a t =>
    have ha := h a (by simp)
    simp [widthOf, ha]

theorem isRect_map_rows (m : List (List α)) (g : α → β) (h : IsRect m) :
    IsRect (m.map (fun row => row.map g)) := by
  refine isRect_of_const_length _ (widthOf m) ?_
  intro r hr
  obtain ⟨row, hrow, rfl⟩ := List.mem_map.1 hr
  simp [h row hrow]

theorem length_pySlice (l : List α) (lo hi : ℤ) :
    (pySlice l lo hi).length
      = min (sliceIdx l.length hi) l.length - sliceIdx l.length lo := by
  simp [pySlice]

theorem isRect_extract (bbox : List ℚ) (seg : List (List Nat))
    (h : IsRect seg) : IsRect (extract_area_inside_bbox bbox seg) := by
  refine isRect_of_const_length _
    (min (sliceIdx (widthOf seg) ⌈bbox.getD 0 0 + bbox.getD 2 0⌉) (widthOf seg)
      - sliceIdx (widthOf seg) ⌊bbox.getD 0 0⌋) ?_
  intro r hr
  simp only [extract_area_inside_bbox] at hr
  obtain ⟨row, hrow, rfl⟩ := List.mem_map.1 hr
  have hlen : row.length = widthOf seg := h row (mem_pySlice seg _ _ row hrow)
  rw [length_pySlice, hlen]

/-- The `area` component returned by `generate_binary_mask` coincides
with the number of foreground pixels recovered by decoding the RLE of
the returned binary mask. -/
theorem generate_binary_mask_area_decode (seg : List (List Nat)) (code : Nat)
    (hseg : IsRect seg) :
    (generate_binary_mask seg code).2
      = (decodeFlat
          (binary_mask_to_rle (generate_binary_mask seg code).1).counts).count
          true := by
  have hbm : IsRect (generate_binary_mask seg code).1 :=
    isRect_map_rows seg (fun p => p == code) hseg
  have hcounts : (binary_mask_to_rle (generate_binary_mask seg code).1).counts
      = rleCounts (ravelF (generate_binary_mask seg code).1) := rfl
  rw [hcounts, decodeFlat_rleCounts, ravelF_count_eq_flatten _ hbm,
    List.count_flatten]
  rfl

theorem getD_zero_mem (l : List α) (d : α) (hne : l ≠ []) : l.getD 0 d ∈ l := by
  cases l with
  | nil => exact absurd rfl hne
  | cons a t => simp

theorem sampleOutputs_length : sampleOutputs.length = 2 := by
  show ((generate_annotations clu0 ilu0 col0 tset0 [sampleFile, sampleFileB]).1
      ++ (generate_annotations clu0 ilu0 col0 tset0
        [sampleFile, sampleFileB]).2).length = 2
  rw [generate_annotations_eq]
  show (trainRecs clu0 ilu0 col0 tset0 [sampleFile, sampleFileB] 1
      ++ testRecs clu0 ilu0 col0 tset0 [sampleFile, sampleFileB] 1).length = 2
  rw [(train_test_perm clu0 ilu0 col0 tset0 [sampleFile, sampleFileB] 1).length_eq,
    length_allRecs]
  decide

theorem sampleRecord_mem : sampleRecord ∈ sampleOutputs := by
  refine getD_zero_mem sampleOutputs defaultRecord ?_
  intro h
  have := sampleOutputs_length
  rw [h] at this
  simp at this

theorem roundHalfEven_intCast (n : ℤ) : roundHalfEven (n : ℚ) = n := by
  unfold roundHalfEven
  rw [Int.fract_intCast, if_pos (by norm_num)]
  exact Int.floor_intCast n

theorem pyRound8_intCast (n : ℤ) : pyRound8 (n : ℚ) = n := by
  unfold pyRound8
  have h : ((n : ℚ) * 100000000) = ((n * 100000000 : ℤ) : ℚ) := by
    push_cast
    ring
  rw [h, roundHalfEven_intCast]
  push_cast
  rw [mul_div_assoc]
  norm_num

/-! ## The claims about the generator -/

/-- C4. `generate_binary_mask` returns the pointwise equality mask
`submask[p] == intensity` together with the exact count of its true
pixels, and that same count is what lands in each record's `area` field
for the encoded mask (recovered here by decoding the record's RLE). -/
theorem c4_generate_binary_mask (seg : List (List Nat)) (code : Nat)
    (i j : Nat) (hi : i < seg.length) (hj : j < (seg.getD i []).length)
    (clu ilu : String → Int) (colors : String → Nat) (tset : String → Bool)
    (files : List ImageFile) (hrect : ∀ f ∈ files, IsRect f.seg_array) :
    (((generate_binary_mask seg code).1.getD i []).getD j false
        = ((seg.getD i []).getD j 0 == code))
    ∧ (generate_binary_mask seg code).2
        = ((generate_binary_mask seg code).1.flatten).count true
    ∧ ∀ r ∈ (generate_annotations clu ilu colors tset files).1
          ++ (generate_annotations clu ilu colors tset files).2,
        r.area = (decodeFlat r.segmentation.counts).count true := by
  refine ⟨?_, ?_, ?_⟩
  · have hbm : (generate_binary_mask seg code).1
        = seg.map (fun row => row.map (fun p => p == code)) := rfl
    have hlen : i < (seg.map (fun row => row.map (fun p => p == code))).length := by
      simpa using hi
    have step1 : (seg.map (fun row => row.map (fun p => p == code))).getD i []
        = (seg.getD i []).map (fun p => p == code) := by
      rw [List.getD_eq_getElem _ _ hlen, List.getElem_map,
        List.getD_eq_getElem _ _ hi]
    rw [hbm, step1]
    have hj' : j < ((seg.getD i []).map (fun p => p == code)).length := by
      simpa using hj
    rw [List.getD_eq_getElem _ _ hj', List.getElem_map,
      List.getD_eq_getElem _ _ hj]
  · rw [List.count_flatten]
    rfl
  · intro r hr
    rw [generate_annotations_eq] at hr
    have hr' := (train_test_perm clu ilu colors tset files 1).mem_iff.1 hr
    obtain ⟨f, hfmem, o, ho, hname, k, rfl⟩ :=
      mem_allRecs clu ilu colors files 1 r hr'
    exact generate_binary_mask_area_decode _ _
      (isRect_extract _ _ (hrect f hfmem))

/-- Witness for C4: concrete submask, intensity, pixel, and run. -/
theorem c4_generate_binary_mask_witness :
    (((generate_binary_mask [[7, 0], [0, 7]] 7).1.getD 0 []).getD 1 false
        = ((([[7, 0], [0, 7]] : List (List Nat)).getD 0 []).getD 1 0 == 7))
    ∧ (generate_binary_mask [[7, 0], [0, 7]] 7).2
        = ((generate_binary_mask [[7, 0], [0, 7]] 7).1.flatten).count true
    ∧ sampleRecord.area
        = (decodeFlat sampleRecord.segmentation.counts).count true := by
  have h := c4_generate_binary_mask [[7, 0], [0, 7]] 7 0 1 (by decide) (by decide)
    clu0 ilu0 col0 tset0 [sampleFile, sampleFileB] (by decide)
  exact ⟨h.1, h.2.1, h.2.2 sampleRecord sampleRecord_mem⟩

/-- C6 (amended): the Bounding-Box Normalizer computes
`x = xmin_frac*width`, `y = ymin_frac*height`,
`w = xmax_frac*width − x`, `h = ymax_frac*height − y` with `w`, `h`
rounded to 8 decimal digits, but performs no validation: a record is
emitted for every non-"brace" object even when `w < 0` or `h < 0`, and
no `InvalidBoxError` exists (the original leaves the check missing). -/
theorem c6_bbox_formula_no_validation (clu ilu : String → Int)
    (colors : String → Nat) (tset : String → Bool) (files : List ImageFile) :
    ((generate_annotations clu ilu colors tset files).1
        ++ (generate_annotations clu ilu colors tset files).2).length
      = totalNB files
    ∧ ∀ r ∈ (generate_annotations clu ilu colors tset files).1
          ++ (generate_annotations clu ilu colors tset files).2,
        ∃ f ∈ files, ∃ o ∈ f.objects, o.name ≠ "brace" ∧
          r.bbox = [o.xmin * f.width, o.ymin * f.height,
            pyRound8 (o.xmax * f.width - o.xmin * f.width),
            pyRound8 (o.ymax * f.height - o.ymin * f.height)] := by
  constructor
  · rw [generate_annotations_eq]
    have hlen := (train_test_perm clu ilu colors tset files 1).length_eq
    rw [show ((trainRecs clu ilu colors tset files 1,
        testRecs clu ilu colors tset files 1).1
        ++ (trainRecs clu ilu colors tset files 1,
            testRecs clu ilu colors tset files 1).2)
        = trainRecs clu ilu colors tset files 1
          ++ testRecs clu ilu colors tset files 1 from rfl, hlen,
      length_allRecs]
  · intro r hr
    rw [generate_annotations_eq] at hr
    have hr' := (train_test_perm clu ilu colors tset files 1).mem_iff.1 hr
    obtain ⟨f, hfmem, o, ho, hname, k, rfl⟩ :=
      mem_allRecs clu ilu colors files 1 r hr'
    exact ⟨f, hfmem, o, ho, hname, rfl⟩

/-- Counterexample to C6 as stated: on an object with an inverted box
the run completes and emits a record whose bbox width is `−1 < 0` — it
does not fail with any `InvalidBoxError`. -/
theorem c6_counterexample_record_with_negative_width :
    ((generate_annotations clu0 ilu0 col0 (fun _ => false)
        [invertedBoxFile]).1
      ++ (generate_annotations clu0 ilu0 col0 (fun _ => false)
        [invertedBoxFile]).2).map (fun r => r.bbox.getD 2 0)
      = [(-1 : ℚ)] := by
  have hr8 : pyRound8 (-1 : ℚ) = -1 := by
    have h := pyRound8_intCast (-1)
    simpa using h
  rw [generate_annotations_eq]
  show ((trainRecs clu0 ilu0 col0 (fun _ => false) [invertedBoxFile] 1
      ++ testRecs clu0 ilu0 col0 (fun _ => false) [invertedBoxFile] 1).map
        (fun r => r.bbox.getD 2 0)) = [(-1 : ℚ)]
  norm_num [trainRecs, testRecs, recsFrom, buildRecord, invertedBoxFile,
    invertedBoxObject, hr8]
  rw [if_neg (by decide)]
  simp

/-- Witness for C6 at the sample run. -/
theorem c6_bbox_formula_no_validation_witness :
    (((generate_annotations clu0 ilu0 col0 tset0 [sampleFile, sampleFileB]).1
        ++ (generate_annotations clu0 ilu0 col0 tset0
          [sampleFile, sampleFileB]).2).length
      = totalNB [sampleFile, sampleFileB])
    ∧ ∃ f ∈ [sampleFile, sampleFileB], ∃ o ∈ f.objects, o.name ≠ "brace" ∧
        sampleRecord.bbox = [o.xmin * f.width, o.ymin * f.height,
          pyRound8 (o.xmax * f.width - o.xmin * f.width),
          pyRound8 (o.ymax * f.height - o.ymin * f.height)] := by
  have h := c6_bbox_formula_no_validation clu0 ilu0 col0 tset0
    [sampleFile, sampleFileB]
  exact ⟨h.1, h.2 sampleRecord sampleRecord_mem⟩

/-- C7. For any non-empty input set, the ids in the concatenation of the
train and validation lists, taken in generation order (the creation
trace `generate_all`, of which the concatenation is a permutation), are
unique and strictly increasing. -/
theorem c7_ids_unique_increasing (clu ilu : String → Int)
    (colors : String → Nat) (tset : String → Bool) (files : List ImageFile)
    (_hne : files ≠ []) :
    (((generate_annotations clu ilu colors tset files).1.map
          AnnotationRecord.id)
        ++ ((generate_annotations clu ilu colors tset files).2.map
          AnnotationRecord.id)).Nodup
    ∧ ((generate_annotations clu ilu colors tset files).1
        ++ (generate_annotations clu ilu colors tset files).2).Perm
        (generate_all clu ilu colors files)
    ∧ List.Pairwise (· < ·)
        ((generate_all clu ilu colors files).map AnnotationRecord.id) := by
  have hperm : ((generate_annotations clu ilu colors tset files).1
      ++ (generate_annotations clu ilu colors tset files).2).Perm
      (generate_all clu ilu colors files) := by
    rw [generate_annotations_eq, generate_all_eq]
    exact train_test_perm clu ilu colors tset files 1
  refine ⟨?_, hperm, ?_⟩
  · rw [← List.map_append]
    refine (List.Perm.nodup_iff (hperm.map AnnotationRecord.id)).2 ?_
    rw [generate_all_eq, map_id_allRecs]
    exact List.nodup_range' 1 (totalNB files)
  · rw [generate_all_eq, map_id_allRecs]
    exact List.pairwise_lt_range' 1 (totalNB files)

/-- Witness for C7 at the two-image sample run. -/
theorem c7_ids_unique_increasing_witness :
    (((generate_annotations clu0 ilu0 col0 tset0
          [sampleFile, sampleFileB]).1.map AnnotationRecord.id)
        ++ ((generate_annotations clu0 ilu0 col0 tset0
          [sampleFile, sampleFileB]).2.map AnnotationRecord.id)).Nodup
    ∧ ((generate_annotations clu0 ilu0 col0 tset0 [sampleFile, sampleFileB]).1
        ++ (generate_annotations clu0 ilu0 col0 tset0
          [sampleFile, sampleFileB]).2).Perm
        (generate_all clu0 ilu0 col0 [sampleFile, sampleFileB])
    ∧ List.Pairwise (· < ·)
        ((generate_all clu0 ilu0 col0 [sampleFile, sampleFileB]).map
          AnnotationRecord.id) :=
  c7_ids_unique_increasing clu0 ilu0 col0 tset0 [sampleFile, sampleFileB]
    (by decide)

/-- C8. No emitted record carries the "brace" category: every record in
either output list originates from an object whose name is not "brace",
and — provided no non-"brace" input name shares "brace"'s category id —
its `category_id` differs from `category_lookup "brace"`. -/
theorem c8_no_brace_in_output (clu ilu : String → Int)
    (colors : String → Nat) (tset : String → Bool) (files : List ImageFile)
    (hinj : ∀ f ∈ files, ∀ o ∈ f.objects, o.name ≠ "brace" →
      clu o.name ≠ clu "brace") :
    ∀ r ∈ (generate_annotations clu ilu colors tset files).1
        ++ (generate_annotations clu ilu colors tset files).2,
      r.category_id ≠ clu "brace"
      ∧ ∃ f ∈ files, ∃ o ∈ f.objects, o.name ≠ "brace" ∧
          ∃ k, r = buildRecord clu ilu colors f o k := by
  intro r hr
  rw [generate_annotations_eq] at hr
  have hr' := (train_test_perm clu ilu colors tset files 1).mem_iff.1 hr
  obtain ⟨f, hfmem, o, ho, hname, k, rfl⟩ :=
    mem_allRecs clu ilu colors files 1 r hr'
  exact ⟨hinj f hfmem o ho hname, f, hfmem, o, ho, hname, k, rfl⟩

/-- Witness for C8: the sample run's first record does not carry the
"brace" category id and stems from a non-"brace" object. -/
theorem c8_no_brace_in_output_witness :
    sampleRecord.category_id ≠ clu0 "brace"
    ∧ ∃ f ∈ [sampleFile, sampleFileB], ∃ o ∈ f.objects, o.name ≠ "brace" ∧
        ∃ k, sampleRecord = buildRecord clu0 ilu0 col0 f o k :=
  c8_no_brace_in_output clu0 ilu0 col0 tset0 [sampleFile, sampleFileB]
    (by decide) sampleRecord sampleRecord_mem

/-- C10. The creation trace assigns exactly the consecutive ids
`1, 2, …, N` where `N` is the number of records created — equal to the
number of non-"brace" objects, since "brace" objects consume no id. -/
theorem c10_ids_consecutive (clu ilu : String → Int) (colors : String → Nat)
    (files : List ImageFile) :
    (generate_all clu ilu colors files).map AnnotationRecord.id
      = List.range' 1 ((generate_all clu ilu colors files).length)
    ∧ (generate_all clu ilu colors files).length = totalNB files := by
  constructor
  · rw [generate_all_eq, map_id_allRecs, length_allRecs]
  · rw [generate_all_eq, length_allRecs]

end Watershed
